import Mathlib

/-!
# Verification of the koru-delta Chunking + Hybrid Search subsystem

Shallow embedding of the two self-contained components of the repository:

* `koru_delta/integrations/chunking.py` — recursive boundary-aware text
  splitting with overlap (`ChunkingConfig`, `chunk_document`,
  `RecursiveCharacterTextSplitter`).
* `koru_delta/integrations/hybrid.py` — hybrid vector/causal search ranker
  (`HybridSearcher.search`, `time_travel_search`,
  `search_with_temporal_decay`, `_calculate_causal_score`).

Texts are `List Char` (Python `str`); Python `float` scores are modelled over
an arbitrary `LinearOrderedField` (instantiated at `ℚ` for executable
witnesses and at `ℝ` where `math.exp` matters).  The external store
(`db.similar` / `get` / `history` / `get_at`) is a record of functions, so a
call that raises is a call returning `none`.
-/

namespace KoruDelta

/-! ## Chunking (`chunking.py`) -/

/-- The characters Python `str.strip()` removes: exactly those with
`str.isspace() == True` in CPython, i.e. code points 09-0D, 1C-20, 85
(NEL), A0 (NBSP), 1680 (Ogham space), 2000-200A (typographic spaces),
2028/2029 (line/paragraph separator), 202F, 205F and 3000. -/
def pyIsSpace (c : Char) : Bool :=
  let n := c.toNat
  (0x09 ≤ n && n ≤ 0x0d) || (0x1c ≤ n && n ≤ 0x20) || n == 0x85 ||
    n == 0xa0 || n == 0x1680 || (0x2000 ≤ n && n ≤ 0x200a) ||
    n == 0x2028 || n == 0x2029 || n == 0x202f || n == 0x205f || n == 0x3000

/-- Python `str.strip()`: drop leading and trailing whitespace. -/
def pyStrip (s : List Char) : List Char :=
  ((s.dropWhile pyIsSpace).reverse.dropWhile pyIsSpace).reverse

/-- Default separator list installed by `ChunkingConfig.__post_init__`
(chunking.py line 45). -/
def defaultSeparators : List (List Char) :=
  [['\n', '\n'], ['\n'], ['.', ' '], ['!', ' '], ['?', ' '], [' '], []]

/-- `ChunkingConfig` (chunking.py lines 14-51).  `chunk_size` and
`chunk_overlap` are Python `int`s; the constructor rejects non-positive
`chunk_size` and negative overlap, so `Nat` carries validated values. -/
structure ChunkingConfig where
  chunk_size : Nat := 1000
  chunk_overlap : Nat := 100
  separators : List (List Char) := defaultSeparators
  keep_separator : Bool := true
  strip_whitespace : Bool := true
deriving DecidableEq

/-- The invariant `__post_init__` enforces: positive size, overlap < size
(chunking.py lines 46-51; overlap ≥ 0 is implicit in `Nat`). -/
def ChunkingConfig.Valid (cfg : ChunkingConfig) : Prop :=
  0 < cfg.chunk_size ∧ cfg.chunk_overlap < cfg.chunk_size

instance (cfg : ChunkingConfig) : Decidable cfg.Valid := by
  unfold ChunkingConfig.Valid; infer_instance

/-- The `while start < len(text)` loop of `_character_split`
(chunking.py lines 168-186), with explicit fuel.  Each iteration takes the
window `text[start : start + chunk_size]`, optionally strips it, emits it if
non-empty, and advances `start` by `chunk_size - chunk_overlap`.  Fuel
`text.length` always suffices when the stride is positive (see the
termination theorem for C9). -/
def characterSplitGo (cfg : ChunkingConfig) (text : List Char) :
    Nat → Nat → List (List Char)
  | 0, _ => []
  | fuel + 1, start =>
    if start < text.length then
      let chunk := (text.drop start).take cfg.chunk_size
      let chunk := if cfg.strip_whitespace then pyStrip chunk else chunk
      let rest := characterSplitGo cfg text fuel
        (start + (cfg.chunk_size - cfg.chunk_overlap))
      if chunk.isEmpty then rest else chunk :: rest
    else []

/-- `_character_split` (chunking.py lines 168-186). -/
def characterSplit (cfg : ChunkingConfig) (text : List Char) : List (List Char) :=
  characterSplitGo cfg text text.length 0

/-- Python `text.split(sep)` for a non-empty `sep`: split at every leftmost
non-overlapping occurrence, keeping empty pieces.  Fuel `text.length`
suffices because every step consumes at least one character. -/
def pySplitGo (sep : List Char) : Nat → List Char → List Char → List (List Char)
  | _, [], acc => [acc.reverse]
  | 0, text, acc => [acc.reverse ++ text]
  | fuel + 1, d :: rest, acc =>
    if sep.isPrefixOf (d :: rest) then
      acc.reverse :: pySplitGo sep fuel ((d :: rest).drop sep.length) []
    else
      pySplitGo sep fuel rest (d :: acc)

def pySplit (sep text : List Char) : List (List Char) :=
  pySplitGo sep text.length text []

/-- `re.split(f"(?<={term}) ", text)`: split at (and consume) every space
whose predecessor in the original text is the sentence terminator `term`
(chunking.py lines 147-150).  `prev` is the previously scanned character
(`none` at position 0, where the lookbehind cannot match). -/
def sentSplitGo (term : Char) : List Char → Option Char → List Char → List (List Char)
  | [], _, acc => [acc.reverse]
  | d :: rest, prev, acc =>
    if d = ' ' ∧ prev = some term then
      acc.reverse :: sentSplitGo term rest (some d) []
    else
      sentSplitGo term rest (some d) (d :: acc)

def sentSplit (term : Char) (text : List Char) : List (List Char) :=
  sentSplitGo term text none []

/-- Re-append the separator text to every split but the last
(chunking.py lines 154-164). -/
def reAddSeparator (add : List Char) : List (List Char) → List (List Char)
  | [] => []
  | [s] => [s]
  | s :: rest => (s ++ add) :: reAddSeparator add rest

/-- The sentence-terminator separators singled out at chunking.py line 147. -/
def isSentenceSep (sep : List Char) : Bool :=
  sep == ['.', ' '] || sep == ['!', ' '] || sep == ['?', ' ']

/-- `_split_with_separator` (chunking.py lines 141-166).  For sentence
separators the lookbehind split keeps the terminator with the preceding
fragment and only the space is re-added; otherwise a plain `str.split`
with the full separator re-added.  With `keep_separator` off, empty pieces
are filtered out. -/
def splitWithSeparator (cfg : ChunkingConfig) (text sep : List Char) :
    List (List Char) :=
  if sep.isEmpty then text.map (fun c => [c])
  else
    let splits :=
      if isSentenceSep sep then sentSplit (sep.headD ' ') text
      else pySplit sep text
    if cfg.keep_separator then
      reAddSeparator (if isSentenceSep sep then [' '] else sep) splits
    else
      splits.filter (fun s => ¬ s.isEmpty)

/-- What a text must contain for the splitter to be able to emit a chunk
from it: a non-whitespace character when `strip_whitespace` is on
(stripping erases all-whitespace fragments), mere non-emptiness
otherwise. -/
def hasContent (cfg : ChunkingConfig) (l : List Char) : Prop :=
  if cfg.strip_whitespace then ∃ c ∈ l, pyIsSpace c = false else l ≠ []

instance (cfg : ChunkingConfig) (l : List Char) : Decidable (hasContent cfg l) := by
  unfold hasContent; infer_instance

/-- Join a list of fragments, interposing `add` between neighbours: the
abstract form of `reAddSeparator` followed by concatenation, used to state
that splitting and re-joining reconstructs the text. -/
def sepJoin (add : List Char) : List (List Char) → List Char
  | [] => []
  | [s] => s
  | s :: rest => s ++ add ++ sepJoin add rest

/-- Flushing the working buffer in `_merge_splits` (chunking.py lines
202-206 and 217-221): join, optionally strip, keep only if non-empty. -/
def flushChunk (cfg : ChunkingConfig) (current : List (List Char)) :
    List (List Char) :=
  let t := current.flatten
  let t := if cfg.strip_whitespace then pyStrip t else t
  if t.isEmpty then [] else [t]

/-- The backwards walk of `_get_overlap_chunk` (chunking.py lines 225-243),
applied to the already-reversed buffer; `acc` collects the overlap window in
original order. -/
def getOverlapGo (cfg : ChunkingConfig) :
    List (List Char) → Nat → List (List Char) → List (List Char)
  | [], _, acc => acc
  | c :: rest, size, acc =>
    if size + c.length ≤ cfg.chunk_overlap then
      getOverlapGo cfg rest (size + c.length) (c :: acc)
    else
      let remaining := cfg.chunk_overlap - size
      if 0 < remaining then (c.drop (c.length - remaining)) :: acc else acc

/-- `_get_overlap_chunk` (chunking.py lines 225-243). -/
def getOverlapChunk (cfg : ChunkingConfig) (chunks : List (List Char)) :
    List (List Char) :=
  getOverlapGo cfg chunks.reverse 0 []

/-- The accumulation loop of `_merge_splits` (chunking.py lines 193-221).
State: pending splits, working buffer, its tracked length, finished chunks. -/
def mergeGo (cfg : ChunkingConfig) :
    List (List Char) → List (List Char) → Nat → List (List Char) → List (List Char)
  | [], current, _, chunks => chunks ++ flushChunk cfg current
  | split :: rest, current, currentLength, chunks =>
    if cfg.chunk_size < currentLength + split.length ∧ ¬ current.isEmpty then
      let chunks' := chunks ++ flushChunk cfg current
      let current' := getOverlapChunk cfg current
      let len' := (current'.map List.length).sum
      mergeGo cfg rest (current' ++ [split]) (len' + split.length) chunks'
    else
      mergeGo cfg rest (current ++ [split]) (currentLength + split.length) chunks

/-- `_merge_splits` (chunking.py lines 188-223). -/
def mergeSplits (cfg : ChunkingConfig) (splits : List (List Char)) :
    List (List Char) :=
  if splits.isEmpty then [] else mergeGo cfg splits [] 0 []

/-- `_split_text_recursive` (chunking.py lines 102-139).  The Python `for`
loop over `separators` returns unconditionally on its first iteration, so
only the head separator is consulted at each level; fragments that are
still too large recurse with the remaining separators (or fall back to the
character split when none remain). -/
def splitTextRecursive (cfg : ChunkingConfig) :
    List (List Char) → List Char → List (List Char)
  | seps, text =>
    if text.length ≤ cfg.chunk_size then
      let cleaned := if cfg.strip_whitespace then pyStrip text else text
      if cleaned.isEmpty then [] else [cleaned]
    else
      match seps with
      | [] => characterSplit cfg text
      | sep :: rest =>
        if sep.isEmpty then characterSplit cfg text
        else
          let splits := splitWithSeparator cfg text sep
          let goodSplits := splits.flatMap (fun s =>
            if s.length ≤ cfg.chunk_size then [s]
            else if ¬ rest.isEmpty then splitTextRecursive cfg rest s
            else characterSplit cfg s)
          mergeSplits cfg goodSplits

/-- `chunk_document` (chunking.py lines 54-84) followed by
`RecursiveCharacterTextSplitter.split_text`.  Line 96 replaces a falsy
(empty) separator list with the default one. -/
def chunk_document (text : List Char) (cfg : ChunkingConfig) : List (List Char) :=
  if text.isEmpty then []
  else
    splitTextRecursive cfg
      (if cfg.separators.isEmpty then defaultSeparators else cfg.separators) text

/-! ## Hybrid search (`hybrid.py`)

Scores are Python floats, modelled over a `LinearOrderedField` `α`; content
values are an opaque type `V`.  ISO-8601 timestamps are compared as strings
in the source, hence `String` with its lexicographic order here.  A version
history entry is reduced to its `"timestamp"` field (an optional string):
nothing else of an entry is ever read by hybrid.py. -/

/-- Python truthiness for an optional string: `None` and `""` are falsy.
Used wherever the source tests `if some_timestamp and ...:`. -/
def strVal : Option String → Option String
  | some s => if s = "" then none else some s
  | none => none

/-- One element of the `db.similar` result list (spec §6: every hit carries
`namespace`, `key`, `score`; the defensive `dict.get` defaults of hybrid.py
lines 154-156 therefore never fire and are not modelled).  `namespace` is a
Lean keyword, so the field is `ns`. -/
structure SimilarHit (α : Type) where
  ns : String
  key : String
  score : α
deriving DecidableEq

/-- The metadata dict built at hybrid.py lines 165-170, plus the
observability-only keys added later by `time_travel_search`
(`as_of_timestamp`, line 315) and `search_with_temporal_decay`
(`age_days` / `decay_factor`, lines 382-386), absent (`none`) until set. -/
structure Metadata (α : Type) where
  history : List (Option String)
  version_count : Nat
  latest_timestamp : Option String
  earliest_timestamp : Option String
  as_of_timestamp : Option String := none
  age_days : Option α := none
  decay_factor : Option α := none
deriving DecidableEq

/-- `CausalFilter` (hybrid.py lines 49-67).  `related_to_key` is declared by
the source but never read by any code path. -/
structure CausalFilter (α : Type) where
  after_timestamp : Option String := none
  before_timestamp : Option String := none
  min_version_count : Option Int := none
  related_to_key : Option (String × String) := none
  custom_filter : Option (Metadata α → Bool) := none

/-- `HybridSearchResult` (hybrid.py lines 19-46). -/
structure HybridSearchResult (α V : Type) where
  ns : String
  key : String
  content : V
  vector_score : α
  causal_score : α
  combined_score : α
  metadata : Metadata α
deriving DecidableEq

/-- The four store operations the ranker consumes (spec §6).  A raising call
is a call returning `none`. -/
structure Store (α V : Type) where
  similar : Option String → List α → Nat → α → Option String → List (SimilarHit α)
  get : String → String → Option V
  history : String → String → Option (List (Option String))
  get_at : String → String → String → Option V

variable {α V : Type} [LinearOrderedField α]

/-- `_calculate_causal_score`, first criterion (hybrid.py lines 235-238):
`after_timestamp` truthy and `latest` truthy, `latest` before the bound →
eliminate (`none`), otherwise contribute `1.0`; criterion inapplicable →
no contribution. -/
def afterStep (md : Metadata α) (f : CausalFilter α) : Option (List α) :=
  match strVal f.after_timestamp, strVal md.latest_timestamp with
  | some a, some latest => if latest < a then none else some [1]
  | _, _ => some ([] : List α)

/-- `_calculate_causal_score`, second criterion (hybrid.py lines 240-243):
`before_timestamp` truthy and `earliest` truthy, `earliest` after the
bound → eliminate, otherwise contribute `1.0`. -/
def beforeStep (md : Metadata α) (f : CausalFilter α) (s : List α) :
    Option (List α) :=
  match strVal f.before_timestamp, strVal md.earliest_timestamp with
  | some b, some earliest => if b < earliest then none else some (s ++ [1])
  | _, _ => some s

/-- `_calculate_causal_score`, third criterion (hybrid.py lines 246-251):
`min_version_count` set and `version_count` below it → eliminate,
otherwise contribute `min(1.0, version_count / 10.0)`. -/
def versionStep (md : Metadata α) (f : CausalFilter α) (s : List α) :
    Option (List α) :=
  match f.min_version_count with
  | some m =>
    if (md.version_count : Int) < m then none
    else some (s ++ [min 1 ((md.version_count : α) / 10)])
  | none => some s

/-- `_calculate_causal_score`, fourth criterion (hybrid.py lines 254-257):
a set `custom_filter` returning `False` eliminates, returning `True`
contributes `1.0`. -/
def customStep (md : Metadata α) (f : CausalFilter α) (s : List α) :
    Option (List α) :=
  match f.custom_filter with
  | some p => if p md then some (s ++ [1]) else none
  | none => some s

/-- The partial scores accumulated by `_calculate_causal_score`
(hybrid.py lines 229-257) when a (non-`None`) filter is supplied:
`none` means a `return 0.0  # Eliminated` early exit fired; `some scores`
is the `scores` list after all four criteria ran in source order. -/
def causalPartials (md : Metadata α) (f : CausalFilter α) : Option (List α) :=
  (((afterStep md f).bind (beforeStep md f)).bind (versionStep md f)).bind
    (customStep md f)

/-- `_calculate_causal_score` (hybrid.py lines 215-262): `0.5` with no
filter; with a filter, `0.0` on elimination, the mean of the collected
partial scores if any, else the neutral `0.5`. -/
def calculateCausalScore (md : Metadata α) (filt : Option (CausalFilter α)) : α :=
  match filt with
  | none => 1 / 2
  | some f =>
    match causalPartials md f with
    | none => 0
    | some [] => 1 / 2
    | some scores => scores.sum / scores.length

/-- The per-candidate record assembled in step 2 of `search`
(hybrid.py lines 151-181). -/
structure CandidateItem (α V : Type) where
  ns : String
  key : String
  content : V
  vector_score : α
  metadata : Metadata α
deriving DecidableEq

/-- Step 2 of `search` (hybrid.py lines 151-181): fetch content and history
per hit; a candidate whose `get` or `history` call raises is skipped. -/
def fetchCandidates (db : Store α V) (hits : List (SimilarHit α)) :
    List (CandidateItem α V) :=
  hits.filterMap fun vr =>
    match db.get vr.ns vr.key, db.history vr.ns vr.key with
    | some content, some history =>
      some { ns := vr.ns, key := vr.key, content := content,
             vector_score := vr.score,
             metadata := { history := history,
                           version_count := history.length,
                           latest_timestamp := history.getLast?.join,
                           earliest_timestamp := history.head?.join } }
    | _, _ => none

/-- Step 3 of `search` (hybrid.py lines 184-209): score one candidate, drop
it when a filter is present and the causal score is ≤ 0, otherwise build the
result with `combined = vector_weight * vector_score + causal_weight *
causal_score`. -/
def scoreItem (filt : Option (CausalFilter α)) (vw cw : α)
    (item : CandidateItem α V) : Option (HybridSearchResult α V) :=
  let cs := calculateCausalScore item.metadata filt
  if filt.isSome ∧ cs ≤ 0 then none
  else
    some { ns := item.ns, key := item.key, content := item.content,
           vector_score := item.vector_score, causal_score := cs,
           combined_score := vw * item.vector_score + cw * cs,
           metadata := item.metadata }

/-- The comparison used by step 4 of `search` (hybrid.py line 212):
`a` may come before `b` when its combined score is not smaller
(`key=lambda x: x.combined_score, reverse=True`). -/
def rankLE (a b : HybridSearchResult α V) : Prop :=
  b.combined_score ≤ a.combined_score

instance : DecidableRel (@rankLE α V _) :=
  fun a b => inferInstanceAs (Decidable (b.combined_score ≤ a.combined_score))

instance : IsTotal (HybridSearchResult α V) rankLE :=
  ⟨fun a b => le_total b.combined_score a.combined_score⟩

instance : IsTrans (HybridSearchResult α V) rankLE :=
  ⟨fun _ _ _ h h' => le_trans h' h⟩

/-- Step 4 of `search` (hybrid.py line 212):
`hybrid_results.sort(key=lambda x: x.combined_score, reverse=True)`.
Python `list.sort` is stable, so this is a stable sort under the total
preorder `rankLE`; insertion sort realizes exactly that (equal keys keep
their arrival order). -/
def sortResults (l : List (HybridSearchResult α V)) :
    List (HybridSearchResult α V) :=
  l.insertionSort rankLE

/-- `HybridSearcher.search` (hybrid.py lines 102-213). -/
def search (db : Store α V) (query_vector : List α) (ns : Option String)
    (top_k : Nat) (vector_threshold : α)
    (causal_filter : Option (CausalFilter α)) (vector_weight causal_weight : α)
    (model_filter : Option String) :
    Except String (List (HybridSearchResult α V)) :=
  if ¬ (0 ≤ vector_weight ∧ vector_weight ≤ 1) then
    .error "vector_weight must be between 0.0 and 1.0"
  else if ¬ (0 ≤ causal_weight ∧ causal_weight ≤ 1) then
    .error "causal_weight must be between 0.0 and 1.0"
  else if 1 / 100 < |vector_weight + causal_weight - 1| then
    .error "vector_weight + causal_weight must equal 1.0"
  else
    let vector_results :=
      db.similar ns query_vector (top_k * 3) vector_threshold model_filter
    if vector_results.isEmpty then .ok []
    else
      let items := fetchCandidates db vector_results
      let hybrid_results :=
        items.filterMap (scoreItem causal_filter vector_weight causal_weight)
      .ok ((sortResults hybrid_results).take top_k)

/-- The per-result historical re-fetch of `time_travel_search`
(hybrid.py lines 299-319): `get_at` at the requested timestamp replaces the
content and stamps the metadata; a raising `get_at` (key absent at that
time) drops the result. -/
def refetchAt (db : Store α V) (timestamp : String)
    (r : HybridSearchResult α V) : Option (HybridSearchResult α V) :=
  (db.get_at r.ns r.key timestamp).map fun v =>
    { r with content := v,
             metadata := { r.metadata with as_of_timestamp := some timestamp } }

/-- `HybridSearcher.time_travel_search` (hybrid.py lines 264-321). -/
def time_travel_search (db : Store α V) (query_vector : List α)
    (timestamp : String) (ns : Option String) (top_k : Nat) :
    Except String (List (HybridSearchResult α V)) :=
  let causal_filter : CausalFilter α := { before_timestamp := some timestamp }
  match search db query_vector ns (top_k * 2) 0 (some causal_filter) 1 0 none with
  | .error e => .error e
  | .ok results =>
    .ok ((results.filterMap (refetchAt db timestamp)).take top_k)

/-- The decay adjustment of one result (hybrid.py lines 359-392).
Externals are parameters: `expF` stands for `math.exp`, `parseTs` for
`datetime.fromisoformat` after the `"Z" → "+00:00"` rewrite (returning epoch
seconds, `none` when parsing raises), `now` for `datetime.now(timezone.utc)`
in epoch seconds.  The source literal `0.693` is the rational `693/1000`
(not `ln 2`). -/
def decayResult (expF : α → α) (parseTs : String → Option α)
    (now half_life_days : α) (r : HybridSearchResult α V) :
    HybridSearchResult α V :=
  match strVal r.metadata.latest_timestamp with
  | some tstr =>
    match parseTs tstr with
    | some t =>
      let age_days := (now - t) / 86400
      let decay_factor := expF (-(693 / 1000) * age_days / half_life_days)
      let adjusted := r.vector_score * decay_factor
      let md := { r.metadata with age_days := some age_days,
                                  decay_factor := some decay_factor }
      { r with causal_score := decay_factor, combined_score := adjusted,
               metadata := md }
    | none => r
  | none => r

/-- `HybridSearcher.search_with_temporal_decay` (hybrid.py lines 323-396). -/
def search_with_temporal_decay (db : Store α V) (expF : α → α)
    (parseTs : String → Option α) (now : α) (query_vector : List α)
    (ns : Option String) (top_k : Nat) (half_life_days : α) :
    Except String (List (HybridSearchResult α V)) :=
  match search db query_vector ns (top_k * 2) 0 none 1 0 none with
  | .error e => .error e
  | .ok results =>
    .ok ((sortResults
      (results.map (decayResult expF parseTs now half_life_days))).take top_k)

/-! ## Concrete stores, configs and inputs used by witnesses and
counterexamples -/

/-- A store exhibiting a combined-score tie whose keys arrive in
descending order. -/
def storeTie : Store ℚ Nat :=
  { similar := fun _ _ _ _ _ => [⟨"n", "b", 1 / 2⟩, ⟨"n", "a", 1 / 2⟩],
    get := fun _ _ => some 0,
    history := fun _ _ => some [],
    get_at := fun _ _ _ => none }

/-- A tight valid chunking config: window 4, overlap 3 (stride 1). -/
def cfgSmall : ChunkingConfig := { chunk_size := 4, chunk_overlap := 3 }

/-- The all-default `ChunkingConfig()`. -/
def cfgDefault : ChunkingConfig := {}

/-- Three words that do not fit one window of `cfgSmall`. -/
def textWords : List Char := "aaa bbb ccc".toList

/-- A valid config with `keep_separator` off and a non-whitespace
separator that covers the whole input. -/
def cfgNoKeep : ChunkingConfig :=
  { chunk_size := 2, chunk_overlap := 0, separators := [['x'], []],
    keep_separator := false }

/-- The tied result for key `"b"` that `search` produces on `storeTie`. -/
def resTieB : HybridSearchResult ℚ Nat :=
  { ns := "n", key := "b", content := 0, vector_score := 1 / 2,
    causal_score := 1 / 2, combined_score := 1 / 2,
    metadata := { history := [], version_count := 0,
                  latest_timestamp := none, earliest_timestamp := none } }

/-- The tied result for key `"a"` that `search` produces on `storeTie`. -/
def resTieA : HybridSearchResult ℚ Nat :=
  { resTieB with key := "a" }

/-- Metadata of a candidate with an empty version history. -/
def mdZero : Metadata α :=
  { history := [], version_count := 0,
    latest_timestamp := none, earliest_timestamp := none }

/-- A filter demanding at least zero versions — satisfied by every
candidate. -/
def fZero : CausalFilter α := { min_version_count := some 0 }

/-- Metadata of a candidate with three versions. -/
def mdThree : Metadata ℚ :=
  { history := [some "t1", some "t2", some "t3"], version_count := 3,
    latest_timestamp := some "t3", earliest_timestamp := some "t1" }

/-- A filter demanding at least ten versions. -/
def fTen : CausalFilter ℚ := { min_version_count := some 10 }

/-- A candidate item carrying `mdThree`. -/
def itemThree : CandidateItem ℚ Nat :=
  { ns := "n", key := "k", content := 0, vector_score := 1,
    metadata := mdThree }

/-- A candidate item carrying `mdZero`. -/
def itemZero : CandidateItem ℚ Nat :=
  { ns := "n", key := "k", content := 0, vector_score := 1,
    metadata := mdZero }

/-- Similarity hits of which one candidate's retrieval will fail. -/
def hitsFail : List (SimilarHit ℚ) := [⟨"n", "good", 1⟩, ⟨"n", "bad", 1 / 2⟩]

/-- A store whose `get` raises for key `"bad"`. -/
def storeFail : Store ℚ Nat :=
  { similar := fun _ _ _ _ _ => hitsFail,
    get := fun _ key => if key = "bad" then none else some 3,
    history := fun _ _ => some [some "2020"],
    get_at := fun _ _ _ => none }

/-- A store for exercising `time_travel_search`: one candidate created at
`"2020"`, whose historical value at any timestamp is `5`. -/
def storeTT : Store ℚ Nat :=
  { similar := fun _ _ _ _ _ => [⟨"n", "k", 1⟩],
    get := fun _ _ => some 7,
    history := fun _ _ => some [some "2020"],
    get_at := fun _ _ _ => some 5 }

/-- The result `time_travel_search` produces on `storeTT` at `"2021"`. -/
def resTT : HybridSearchResult ℚ Nat :=
  { ns := "n", key := "k", content := 5, vector_score := 1,
    causal_score := 1, combined_score := 1,
    metadata := { history := [some "2020"], version_count := 1,
                  latest_timestamp := some "2020",
                  earliest_timestamp := some "2020",
                  as_of_timestamp := some "2021" } }

/-- A timestamp parser mapping everything to epoch second `0` (what
`datetime.fromisoformat` would return for the epoch itself). -/
noncomputable def parseZero : String → Option ℝ := fun _ => some 0

/-- Rational twin of `parseZero`. -/
def parseZeroQ : String → Option ℚ := fun _ => some 0

/-- A store with a single candidate whose one version is stamped `"T"`,
for exercising temporal decay over `ℝ`. -/
noncomputable def storeDecay : Store ℝ Nat :=
  { similar := fun _ _ _ _ _ => [⟨"n", "k", 1⟩],
    get := fun _ _ => some 7,
    history := fun _ _ => some [some "T"],
    get_at := fun _ _ _ => none }

/-- Rational twin of `storeDecay`. -/
def storeDecayQ : Store ℚ Nat :=
  { similar := fun _ _ _ _ _ => [⟨"n", "k", 1⟩],
    get := fun _ _ => some 7,
    history := fun _ _ => some [some "T"],
    get_at := fun _ _ _ => none }

/-- The single result the pure vector search inside
`search_with_temporal_decay` produces on `storeDecay`. -/
noncomputable def resDecayBase : HybridSearchResult ℝ Nat :=
  { ns := "n", key := "k", content := 7, vector_score := 1,
    causal_score := 1 / 2, combined_score := 1 * 1 + 0 * (1 / 2),
    metadata := { history := [some "T"], version_count := 1,
                  latest_timestamp := some "T",
                  earliest_timestamp := some "T" } }

/-- The decayed result `search_with_temporal_decay` produces on
`storeDecayQ` with `expF = id`, `now = 86400` (one day after the parsed
timestamp `0`) and `half_life_days = 1`. -/
def resDecayQ : HybridSearchResult ℚ Nat :=
  { ns := "n", key := "k", content := 7, vector_score := 1,
    causal_score := -(693 / 1000), combined_score := -(693 / 1000),
    metadata := { history := [some "T"], version_count := 1,
                  latest_timestamp := some "T",
                  earliest_timestamp := some "T",
                  age_days := some 1, decay_factor := some (-(693 / 1000)) } }

/-! ## Helper: the shape of a successful `search` -/

/-- Whenever `search` returns `ok rs`, `rs` is the first `top_k` of the
stable ranking sort of the scored candidates fetched from the similarity
hits. -/
theorem search_ok_eq (db : Store α V) (q : List α) (ns : Option String)
    (k : Nat) (th : α) (f : Option (CausalFilter α)) (vw cw : α)
    (mf : Option String) (rs : List (HybridSearchResult α V))
    (hok : search db q ns k th f vw cw mf = Except.ok rs) :
    rs = (sortResults (List.filterMap (scoreItem f vw cw)
            (fetchCandidates db (db.similar ns q (k * 3) th mf)))).take k := by
  revert hok
  simp only [search]
  by_cases h1 : 0 ≤ vw ∧ vw ≤ 1
  · rw [if_neg (not_not_intro h1)]
    by_cases h2 : 0 ≤ cw ∧ cw ≤ 1
    · rw [if_neg (not_not_intro h2)]
      by_cases h3 : 1 / 100 < |vw + cw - 1|
      · rw [if_pos h3]; intro hok; exact Except.noConfusion hok
      · rw [if_neg h3]
        split
        · rename_i h4
          intro hok
          simp only [Except.ok.injEq] at hok
          subst hok
          rw [List.isEmpty_iff.mp h4]
          simp [fetchCandidates, sortResults, List.insertionSort]
        · intro hok
          simp only [Except.ok.injEq] at hok
          exact hok.symm
    · rw [if_pos h2]; intro hok; exact Except.noConfusion hok
  · rw [if_pos h1]; intro hok; exact Except.noConfusion hok

/-! ## C2: weight validation -/

/-- C2: `search` fails with the weight-validation error — returning no
results and independently of the store — exactly when `vector_weight` is
outside `[0,1]`, or `causal_weight` is outside `[0,1]`, or
`|vector_weight + causal_weight - 1|` exceeds `0.01`; in particular, with
`vector_weight = causal_weight = 0.6` it fails for every query and store. -/
theorem search_weight_validation (db : Store α V) (q : List α)
    (ns : Option String) (k : Nat) (th : α) (f : Option (CausalFilter α))
    (vw cw : α) (mf : Option String) :
    ((∃ e, search db q ns k th f vw cw mf = Except.error e) ↔
      (vw < 0 ∨ 1 < vw ∨ cw < 0 ∨ 1 < cw ∨ 1 / 100 < |vw + cw - 1|)) ∧
    search db q ns k th f (6 / 10) (6 / 10) mf =
      Except.error "vector_weight + causal_weight must equal 1.0" := by
  constructor
  · simp only [search]
    by_cases h1 : 0 ≤ vw ∧ vw ≤ 1
    · rw [if_neg (not_not_intro h1)]
      by_cases h2 : 0 ≤ cw ∧ cw ≤ 1
      · rw [if_neg (not_not_intro h2)]
        by_cases h3 : 1 / 100 < |vw + cw - 1|
        · rw [if_pos h3]
          exact iff_of_true ⟨_, rfl⟩ (Or.inr (Or.inr (Or.inr (Or.inr h3))))
        · rw [if_neg h3]
          apply iff_of_false
          · rintro ⟨e, he⟩
            revert he
            split <;> intro he <;> exact Except.noConfusion he
          · rintro (h | h | h | h | h)
            · exact absurd h1.1 (not_le.mpr h)
            · exact absurd h1.2 (not_le.mpr h)
            · exact absurd h2.1 (not_le.mpr h)
            · exact absurd h2.2 (not_le.mpr h)
            · exact h3 h
      · rw [if_pos h2]
        refine iff_of_true ⟨_, rfl⟩ ?_
        rcases not_and_or.mp h2 with h | h
        · exact Or.inr (Or.inr (Or.inl (not_le.mp h)))
        · exact Or.inr (Or.inr (Or.inr (Or.inl (not_le.mp h))))
    · rw [if_pos h1]
      refine iff_of_true ⟨_, rfl⟩ ?_
      rcases not_and_or.mp h1 with h | h
      · exact Or.inl (not_le.mp h)
      · exact Or.inr (Or.inl (not_le.mp h))
  · have hsum : (6 : α) / 10 + 6 / 10 - 1 = 1 / 5 := by ring
    simp only [search, hsum]
    rw [if_neg (not_not_intro ⟨by norm_num, by norm_num⟩),
        if_neg (not_not_intro ⟨by norm_num, by norm_num⟩),
        if_pos (by rw [abs_of_pos (by norm_num)]; norm_num)]

/-! ## C3: ranking order -/

/-- C3 counterexample: two candidates with equal `combined_score` are
returned in fetch order `["b", "a"]`, not key-ascending order — the sort
has no key tie-break, so the output order is not a function of the
candidate set alone. -/
theorem search_tie_not_key_ascending :
    (match search storeTie [] (some "n") 10 0 none (7 / 10) (3 / 10) none with
      | Except.ok rs => rs.map (fun r => (r.key, r.combined_score))
      | Except.error _ => []) =
      [("b", (1 : ℚ) / 2), ("a", (1 : ℚ) / 2)] := by
  with_unfolding_all rfl

/-- Inserting a result whose combined score equals `c` places it in front
of every later-arriving result with that score: the `c`-scored sublist
keeps arrival order. -/
theorem filter_orderedInsert_of_eq (c : α) (a : HybridSearchResult α V)
    (ha : a.combined_score = c) :
    ∀ l : List (HybridSearchResult α V),
      (l.orderedInsert rankLE a).filter (fun r => r.combined_score = c) =
        a :: l.filter (fun r => r.combined_score = c) := by
  intro l
  induction l with
  | nil => simp [List.orderedInsert, List.filter, ha]
  | cons b t ih =>
    rw [List.orderedInsert]
    by_cases hab : rankLE a b
    · rw [if_pos hab, List.filter_cons_of_pos (by simp [ha])]
    · rw [if_neg hab]
      have hb : ¬ b.combined_score = c := by
        intro hbc
        exact hab (show b.combined_score ≤ a.combined_score from
          le_of_eq (hbc.trans ha.symm))
      rw [List.filter_cons_of_neg (by simp [hb]), ih,
          List.filter_cons_of_neg (by simp [hb])]

/-- Inserting a result whose combined score differs from `c` leaves the
`c`-scored sublist unchanged. -/
theorem filter_orderedInsert_of_ne (c : α) (a : HybridSearchResult α V)
    (ha : ¬ a.combined_score = c) :
    ∀ l : List (HybridSearchResult α V),
      (l.orderedInsert rankLE a).filter (fun r => r.combined_score = c) =
        l.filter (fun r => r.combined_score = c) := by
  intro l
  induction l with
  | nil => simp [List.orderedInsert, ha]
  | cons b t ih =>
    rw [List.orderedInsert]
    by_cases hab : rankLE a b
    · rw [if_pos hab, List.filter_cons_of_neg (by simp [ha])]
    · rw [if_neg hab]
      by_cases hb : b.combined_score = c
      · rw [List.filter_cons_of_pos (by simp [hb]), ih,
            List.filter_cons_of_pos (by simp [hb])]
      · rw [List.filter_cons_of_neg (by simp [hb]), ih,
            List.filter_cons_of_neg (by simp [hb])]

/-- Stability of the ranking sort: for every score value `c`, the
results with combined score `c` appear in `sortResults l` in exactly the
order they occur in `l`. -/
theorem sortResults_filter_stable (c : α) (l : List (HybridSearchResult α V)) :
    (sortResults l).filter (fun r => r.combined_score = c) =
      l.filter (fun r => r.combined_score = c) := by
  unfold sortResults
  induction l with
  | nil => rfl
  | cons a t ih =>
    rw [List.insertionSort]
    by_cases ha : a.combined_score = c
    · rw [filter_orderedInsert_of_eq c a ha, ih,
          List.filter_cons_of_pos (by simp [ha])]
    · rw [filter_orderedInsert_of_ne c a ha, ih,
          List.filter_cons_of_neg (by simp [ha])]

/-- C3 amended: `search` sorts the surviving candidates by
`combined_score` descending with a stable sort — ties keep the order in
which candidates were fetched (so the tie order depends on the order
candidates were fetched; there is no key tie-break) — and returns the
first `top_k`: whenever `search` succeeds, its result is exactly the
first `top_k` of that stable sort of the scored candidates. -/
theorem search_sort_is_stable_take_top_k (l : List (HybridSearchResult α V))
    (c : α) (db : Store α V) (q : List α) (ns : Option String) (k : Nat)
    (th : α) (f : Option (CausalFilter α)) (vw cw : α) (mf : Option String)
    (rs : List (HybridSearchResult α V))
    (hok : search db q ns k th f vw cw mf = Except.ok rs) :
    List.Sorted rankLE (sortResults l) ∧
    (sortResults l).Perm l ∧
    (sortResults l).filter (fun r => r.combined_score = c) =
      l.filter (fun r => r.combined_score = c) ∧
    rs = (sortResults (List.filterMap (scoreItem f vw cw)
            (fetchCandidates db (db.similar ns q (k * 3) th mf)))).take k := by
  exact ⟨List.sorted_insertionSort rankLE l, List.perm_insertionSort rankLE l,
    sortResults_filter_stable c l,
    search_ok_eq db q ns k th f vw cw mf rs hok⟩

/-- Witness for C3 (amended) on `storeTie`: the tied results come back in
fetch order. -/
theorem search_sort_is_stable_take_top_k_witness :
    search storeTie [] (some "n") 10 0 none (7 / 10) (3 / 10) none =
      Except.ok [resTieB, resTieA] ∧
    List.Sorted rankLE (sortResults [resTieB, resTieA]) ∧
    (sortResults [resTieB, resTieA]).Perm [resTieB, resTieA] := by
  have hok : search storeTie [] (some "n") 10 0 none (7 / 10) (3 / 10) none =
      Except.ok [resTieB, resTieA] := by
    with_unfolding_all rfl
  have h := search_sort_is_stable_take_top_k [resTieB, resTieA] (1 / 2)
    storeTie [] (some "n") 10 0 none (7 / 10) (3 / 10) none
    [resTieB, resTieA] hok
  exact ⟨hok, h.1, h.2.1⟩

/-! ## C4 and C10: causal filtering and elimination -/

/-- A set `min_version_count` with a too-small `version_count` eliminates:
the partial-score computation exits with `none`. -/
theorem causalPartials_version_elim (md : Metadata α) (f : CausalFilter α)
    (m : Int) (hm : f.min_version_count = some m)
    (hvc : (md.version_count : Int) < m) :
    causalPartials md f = none := by
  rcases h : (afterStep md f).bind (beforeStep md f) with _ | s
  · rw [causalPartials, h]; rfl
  · rw [causalPartials, h]
    show (versionStep md f s).bind (customStep md f) = none
    simp only [versionStep, hm]
    rw [if_pos hvc]
    rfl

/-- A satisfied `min_version_count` criterion appends
`min(1, version_count/10)` to the partial-score list. -/
theorem versionStep_of_ge (md : Metadata α) (f : CausalFilter α) (m : Int)
    (hm : f.min_version_count = some m) (hge : m ≤ (md.version_count : Int))
    (s : List α) :
    versionStep md f s = some (s ++ [min 1 ((md.version_count : α) / 10)]) := by
  simp only [versionStep, hm]
  rw [if_neg (not_lt.mpr hge)]

/-- The custom-filter step never removes an already-contributed partial
score. -/
theorem customStep_mem (md : Metadata α) (f : CausalFilter α) (x : α)
    (s s' : List α) (hx : x ∈ s) (h : customStep md f s = some s') :
    x ∈ s' := by
  rcases hcf : f.custom_filter with _ | p <;>
    simp only [customStep, hcf] at h
  · injection h with h; subst h; exact hx
  · by_cases hp : p md
    · rw [if_pos hp] at h
      injection h with h
      subst h
      exact List.mem_append_left _ hx
    · rw [if_neg hp] at h
      exact Option.noConfusion h

/-- Elimination yields causal score `0`. -/
theorem calculateCausalScore_of_none (md : Metadata α) (f : CausalFilter α)
    (h : causalPartials md f = none) :
    calculateCausalScore md (some f) = 0 := by
  simp only [calculateCausalScore, h]

/-- With a non-empty partial-score list, the causal score is its mean. -/
theorem calculateCausalScore_of_some (md : Metadata α) (f : CausalFilter α)
    (s : List α) (h : causalPartials md f = some s) (hne : s ≠ []) :
    calculateCausalScore md (some f) = s.sum / s.length := by
  cases s with
  | nil => exact absurd rfl hne
  | cons x t => simp only [calculateCausalScore, h]

/-- C4: with a filter setting `min_version_count = m`, a candidate with
`version_count < m` receives causal score `0` and is dropped by the
scoring step (hence excluded from the results entirely); a candidate with
`version_count ≥ m` that survives the other criteria has
`min(1, version_count/10)` contributed to the partial-score list, and its
causal score is the average of that list. -/
theorem min_version_count_behavior (md : Metadata α) (f : CausalFilter α)
    (m : Int) (item : CandidateItem α V) (vw cw : α)
    (hm : f.min_version_count = some m) :
    ((md.version_count : Int) < m →
      calculateCausalScore md (some f) = 0) ∧
    ((item.metadata.version_count : Int) < m →
      scoreItem (some f) vw cw item = none) ∧
    (m ≤ (md.version_count : Int) → ∀ s, causalPartials md f = some s →
      min 1 ((md.version_count : α) / 10) ∈ s ∧
      calculateCausalScore md (some f) = s.sum / s.length) := by
  refine ⟨fun hvc => calculateCausalScore_of_none _ _
      (causalPartials_version_elim _ _ m hm hvc),
    fun hvc => ?_, fun hge s hs => ?_⟩
  · have h0 : calculateCausalScore item.metadata (some f) = 0 :=
      calculateCausalScore_of_none _ _
        (causalPartials_version_elim _ _ m hm hvc)
    simp only [scoreItem, h0]
    rw [if_pos ⟨rfl, le_refl (0 : α)⟩]
  · have hmem : min 1 ((md.version_count : α) / 10) ∈ s := by
      rw [causalPartials] at hs
      rcases Option.bind_eq_some.mp hs with ⟨s3, h3, hc⟩
      rcases Option.bind_eq_some.mp h3 with ⟨s2, h2, hv⟩
      rw [versionStep_of_ge md f m hm hge s2] at hv
      injection hv with hv
      subst hv
      exact customStep_mem md f _ _ s
        (List.mem_append_right _ (List.mem_singleton_self _)) hc
    refine ⟨hmem, calculateCausalScore_of_some md f s hs ?_⟩
    intro he
    subst he
    exact absurd hmem (List.not_mem_nil _)

/-- Witness for C4 at `version_count = 3`, `min_version_count = 10`. -/
theorem min_version_count_behavior_witness :
    ((mdThree.version_count : Int) < 10 ∧
      calculateCausalScore mdThree (some fTen) = (0 : ℚ)) ∧
    ((itemThree.metadata.version_count : Int) < 10 ∧
      scoreItem (some fTen) (7 / 10) (3 / 10) itemThree = none) := by
  have h := min_version_count_behavior mdThree fTen 10 itemThree
    (7 / 10) (3 / 10) rfl
  exact ⟨⟨by decide, h.1 (by decide)⟩, ⟨by decide, h.2.1 (by decide)⟩⟩

/-- C10: whenever a filter is supplied, a candidate whose computed causal
score is ≤ 0 is dropped by the scoring step, and every result a successful
filtered `search` returns has positive causal score; this bites even when
no single criterion eliminated the candidate: with `min_version_count = 0`
and `version_count = 0` every criterion passes, the partial-score list is
`[min 1 (0/10)]`, the averaged causal score is `0`, and the candidate is
dropped. -/
theorem nonpositive_causal_score_excluded
    (filt : Option (CausalFilter α)) (item : CandidateItem α V) (vw cw : α)
    (hsome : filt.isSome = true)
    (hle : calculateCausalScore item.metadata filt ≤ 0)
    (db : Store α V) (q : List α) (ns : Option String) (k : Nat) (th : α)
    (f : CausalFilter α) (mf : Option String)
    (rs : List (HybridSearchResult α V))
    (hok : search db q ns k th (some f) vw cw mf = Except.ok rs) :
    scoreItem filt vw cw item = none ∧
    (∀ r ∈ rs, 0 < r.causal_score) ∧
    causalPartials (mdZero : Metadata α) fZero =
      some [min 1 (((mdZero : Metadata α).version_count : α) / 10)] ∧
    calculateCausalScore (mdZero : Metadata α) (some fZero) = 0 := by
  have hpart : causalPartials (mdZero : Metadata α) fZero =
      some [min 1 (((mdZero : Metadata α).version_count : α) / 10)] := by
    rw [causalPartials]
    rw [show (afterStep (mdZero : Metadata α) fZero).bind
          (beforeStep (mdZero : Metadata α) fZero) = some [] from rfl]
    show (versionStep (mdZero : Metadata α) fZero []).bind
      (customStep (mdZero : Metadata α) fZero) = _
    rw [versionStep_of_ge (mdZero : Metadata α) fZero 0 rfl (by simp [mdZero]) []]
    rfl
  refine ⟨?_, ?_, hpart, ?_⟩
  · simp only [scoreItem]
    rw [if_pos ⟨hsome, hle⟩]
  · intro r hr
    have hrs := search_ok_eq db q ns (k) th (some f) vw cw mf rs hok
    subst hrs
    have hr' : r ∈ sortResults (List.filterMap (scoreItem (some f) vw cw)
        (fetchCandidates db (db.similar ns q (k * 3) th mf))) :=
      List.mem_of_mem_take hr
    have hr'' : r ∈ List.filterMap (scoreItem (some f) vw cw)
        (fetchCandidates db (db.similar ns q (k * 3) th mf)) :=
      (List.mem_insertionSort rankLE).mp hr'
    rcases List.mem_filterMap.mp hr'' with ⟨it, _, hsc⟩
    revert hsc
    simp only [scoreItem]
    split
    · intro hsc; exact Option.noConfusion hsc
    · rename_i hcond
      intro hsc
      injection hsc with hsc
      subst hsc
      simp only [not_and, Option.isSome_some, forall_const] at hcond
      exact lt_of_not_le hcond
  · rw [calculateCausalScore_of_some _ _ _ hpart (by simp)]
    have hv0 : (((mdZero : Metadata α).version_count : Nat) : α) = 0 := by
      norm_num [mdZero]
    simp [hv0, zero_div]

/-- Witness for C10 at a store whose sole candidate has an empty history
and the always-satisfied filter `min_version_count = 0`. -/
theorem nonpositive_causal_score_excluded_witness :
    calculateCausalScore itemZero.metadata (some (fZero : CausalFilter ℚ)) ≤ 0 ∧
    scoreItem (some (fZero : CausalFilter ℚ)) (7 / 10) (3 / 10) itemZero = none := by
  have hle : calculateCausalScore itemZero.metadata
      (some (fZero : CausalFilter ℚ)) ≤ 0 :=
    of_decide_eq_true (by with_unfolding_all rfl)
  have hok : search storeTie [] (some "n") 10 0 (some fZero)
      (7 / 10) (3 / 10) none = Except.ok [] := by
    with_unfolding_all rfl
  exact ⟨hle, (nonpositive_causal_score_excluded (some fZero) itemZero
    (7 / 10) (3 / 10) rfl hle storeTie [] (some "n") 10 0 fZero none []
    hok).1⟩

/-! ## C5: partial-failure policy -/

/-- The fetch step keeps exactly the candidates whose `get` and `history`
calls both succeed: its output names the filtered hit list, in order. -/
theorem fetchCandidates_keys (db : Store α V) :
    ∀ hits : List (SimilarHit α),
      (fetchCandidates db hits).map (fun c => (c.ns, c.key)) =
        (hits.filter (fun vr => (db.get vr.ns vr.key).isSome &&
          (db.history vr.ns vr.key).isSome)).map (fun vr => (vr.ns, vr.key))
  | [] => rfl
  | vr :: t => by
    have ih := fetchCandidates_keys db t
    rw [fetchCandidates] at ih ⊢
    rcases hg : db.get vr.ns vr.key with _ | c <;>
      rcases hh : db.history vr.ns vr.key with _ | hist <;>
      simpa [List.filterMap_cons, List.filter_cons, hg, hh] using ih

/-- Dropping the failing hits before fetching changes nothing: the result
is computed from the remaining candidates alone. -/
theorem fetchCandidates_filter (db : Store α V) :
    ∀ hits : List (SimilarHit α),
      fetchCandidates db hits = fetchCandidates db
        (hits.filter (fun vr => (db.get vr.ns vr.key).isSome &&
          (db.history vr.ns vr.key).isSome))
  | [] => rfl
  | vr :: t => by
    have ih := fetchCandidates_filter db t
    rw [fetchCandidates] at ih ⊢
    conv_rhs => rw [fetchCandidates]
    rcases hg : db.get vr.ns vr.key with _ | c <;>
      rcases hh : db.history vr.ns vr.key with _ | hist <;>
      simpa [List.filterMap_cons, List.filter_cons, hg, hh] using ih

/-- C5: the fetch step keeps exactly the candidates whose `get` and
`history` calls both succeed — a failing candidate is dropped and the
remaining candidates are processed as if it had never been returned — and
with valid weights `search` always returns a complete `ok` result: a
per-item retrieval failure is never surfaced as an error. -/
theorem retrieval_failure_dropped (db : Store α V) (hits : List (SimilarHit α))
    (q : List α) (ns : Option String) (k : Nat) (th : α)
    (f : Option (CausalFilter α)) (vw cw : α) (mf : Option String)
    (hvw : 0 ≤ vw ∧ vw ≤ 1) (hcw : 0 ≤ cw ∧ cw ≤ 1)
    (hsum : |vw + cw - 1| ≤ 1 / 100) :
    (fetchCandidates db hits).map (fun c => (c.ns, c.key)) =
      (hits.filter (fun vr => (db.get vr.ns vr.key).isSome &&
        (db.history vr.ns vr.key).isSome)).map (fun vr => (vr.ns, vr.key)) ∧
    fetchCandidates db hits = fetchCandidates db
      (hits.filter (fun vr => (db.get vr.ns vr.key).isSome &&
        (db.history vr.ns vr.key).isSome)) ∧
    ∃ rs, search db q ns k th f vw cw mf = Except.ok rs := by
  refine ⟨fetchCandidates_keys db hits, fetchCandidates_filter db hits, ?_⟩
  simp only [search]
  rw [if_neg (not_not_intro hvw), if_neg (not_not_intro hcw),
    if_neg (not_lt.mpr hsum)]
  split
  · exact ⟨[], rfl⟩
  · exact ⟨_, rfl⟩

/-- Witness for C5 at a store whose candidate `"bad"` fails retrieval. -/
theorem retrieval_failure_dropped_witness :
    (fetchCandidates storeFail hitsFail).map (fun c => (c.ns, c.key)) =
      (hitsFail.filter (fun vr => (storeFail.get vr.ns vr.key).isSome &&
        (storeFail.history vr.ns vr.key).isSome)).map
          (fun vr => (vr.ns, vr.key)) ∧
    fetchCandidates storeFail hitsFail = fetchCandidates storeFail
      (hitsFail.filter (fun vr => (storeFail.get vr.ns vr.key).isSome &&
        (storeFail.history vr.ns vr.key).isSome)) ∧
    ∃ rs, search storeFail [] (some "n") 10 0 none (7 / 10) (3 / 10) none =
      Except.ok rs :=
  retrieval_failure_dropped storeFail hitsFail [] (some "n") 10 0 none
    (7 / 10) (3 / 10) none ⟨by norm_num, by norm_num⟩
    ⟨by norm_num, by norm_num⟩ (by norm_num)

/-! ## C6: time-travel search -/

/-- C6: `time_travel_search` runs `search` with `vector_weight = 1`,
`causal_weight = 0` and a causal filter whose `before_timestamp` is the
requested timestamp; each surviving candidate is re-fetched as of that
timestamp via `get_at`, candidates absent at that time are dropped, every
returned result carries the historical value, and at most `top_k` results
are returned. -/
theorem time_travel_search_spec (db : Store α V) (q : List α) (ts : String)
    (ns : Option String) (k : Nat) (rs : List (HybridSearchResult α V))
    (hok : time_travel_search db q ts ns k = Except.ok rs) :
    (∃ base, search db q ns (k * 2) 0
        (some { before_timestamp := some ts }) 1 0 none = Except.ok base ∧
      rs = (base.filterMap (refetchAt db ts)).take k) ∧
    rs.length ≤ k ∧
    (∀ r ∈ rs, db.get_at r.ns r.key ts = some r.content ∧
      r.metadata.as_of_timestamp = some ts) := by
  revert hok
  rw [time_travel_search]
  rcases hbase : search db q ns (k * 2) 0
      (some { before_timestamp := some ts }) 1 0 none with e | base <;>
    simp only [hbase]
  · intro hok; exact Except.noConfusion hok
  · intro hok
    injection hok with hok
    subst hok
    refine ⟨⟨base, rfl, rfl⟩, ?_, ?_⟩
    · rw [List.length_take]
      exact min_le_left _ _
    · intro r hr
      have hr' : r ∈ base.filterMap (refetchAt db ts) :=
        List.mem_of_mem_take hr
      rcases List.mem_filterMap.mp hr' with ⟨r0, _, hre⟩
      revert hre
      rw [refetchAt]
      rcases hga : db.get_at r0.ns r0.key ts with _ | v
      · intro hre; exact Option.noConfusion hre
      · intro hre
        have hre' : some { r0 with content := v, metadata := { r0.metadata with as_of_timestamp := some ts } } = some r := hre
        injection hre' with hre'
        subst hre'
        exact ⟨hga, rfl⟩

/-- Witness for C6 on `storeTT`: the candidate exists at `"2021"`, its
content is re-fetched as `5`, and the single result respects `top_k`. -/
theorem time_travel_search_spec_witness :
    time_travel_search storeTT [] "2021" (some "n") 3 = Except.ok [resTT] ∧
    [resTT].length ≤ 3 ∧
    storeTT.get_at resTT.ns resTT.key "2021" = some resTT.content := by
  have hok : time_travel_search storeTT [] "2021" (some "n") 3 =
      Except.ok [resTT] := by
    with_unfolding_all rfl
  have h := time_travel_search_spec storeTT [] "2021" (some "n") 3 [resTT] hok
  exact ⟨hok, h.2.1, (h.2.2 resTT (List.mem_singleton_self _)).1⟩

/-! ## C7: temporal decay -/

/-- C7 amended: `search_with_temporal_decay` runs a pure vector search
(`vector_weight = 1`, `causal_weight = 0`), maps each result through the
decay adjustment — for a result with a truthy, parseable
`latest_timestamp` the combined score becomes
`vector_score * exp(-(0.693) * age_days / half_life_days)` with
`age_days = (now - t)/86400` (the source constant is the literal `0.693`,
an approximation of `ln 2`, not `ln 2` itself) and the causal score
carries the decay factor, while a result without a parseable timestamp
passes through unmodified — then re-sorts by adjusted score descending
and truncates to `top_k`. -/
theorem search_with_temporal_decay_spec (db : Store α V) (expF : α → α)
    (parseTs : String → Option α) (now : α) (q : List α) (ns : Option String)
    (k : Nat) (hl : α) (rs : List (HybridSearchResult α V))
    (hok : search_with_temporal_decay db expF parseTs now q ns k hl =
      Except.ok rs) :
    rs.length ≤ k ∧ List.Sorted rankLE rs ∧
    ∃ base, search db q ns (k * 2) 0 none 1 0 none = Except.ok base ∧
      rs = (sortResults (base.map (decayResult expF parseTs now hl))).take k ∧
      ∀ r ∈ rs, ∃ r0 ∈ base, r = decayResult expF parseTs now hl r0 ∧
        ((∃ tstr t, strVal r0.metadata.latest_timestamp = some tstr ∧
            parseTs tstr = some t ∧
            r.combined_score = r0.vector_score *
              expF (-(693 / 1000) * ((now - t) / 86400) / hl) ∧
            r.causal_score = expF (-(693 / 1000) * ((now - t) / 86400) / hl) ∧
            r.vector_score = r0.vector_score) ∨
          r = r0) := by
  revert hok
  rw [search_with_temporal_decay]
  rcases hbase : search db q ns (k * 2) 0 none 1 0 none with e | base <;>
    simp only [hbase]
  · intro hok; exact Except.noConfusion hok
  · intro hok
    injection hok with hok
    subst hok
    refine ⟨?_, ?_, base, rfl, rfl, ?_⟩
    · rw [List.length_take]
      exact min_le_left _ _
    · exact List.Pairwise.sublist (List.take_sublist _ _)
        (List.sorted_insertionSort rankLE _)
    · intro r hr
      have hr' : r ∈ sortResults (base.map (decayResult expF parseTs now hl)) :=
        List.mem_of_mem_take hr
      have hr'' : r ∈ base.map (decayResult expF parseTs now hl) :=
        (List.mem_insertionSort rankLE).mp hr'
      rcases List.mem_map.mp hr'' with ⟨r0, hr0, heq⟩
      refine ⟨r0, hr0, heq.symm, ?_⟩
      subst heq
      rcases hS : strVal r0.metadata.latest_timestamp with _ | tstr
      · right
        simp only [decayResult, hS]
      · rcases hP : parseTs tstr with _ | t
        · right
          simp only [decayResult, hS, hP]
        · left
          refine ⟨tstr, t, rfl, hP, ?_, ?_, ?_⟩ <;>
            simp only [decayResult, hS, hP]

/-- Witness for C7 (amended) over `ℚ` with `expF = id`: one candidate,
one day old, half-life one day. -/
theorem search_with_temporal_decay_spec_witness :
    search_with_temporal_decay storeDecayQ id parseZeroQ 86400 [] (some "n")
      3 1 = Except.ok [resDecayQ] ∧
    [resDecayQ].length ≤ 3 ∧ List.Sorted rankLE [resDecayQ] := by
  have hok : search_with_temporal_decay storeDecayQ id parseZeroQ 86400 []
      (some "n") 3 1 = Except.ok [resDecayQ] := by
    with_unfolding_all rfl
  have h := search_with_temporal_decay_spec storeDecayQ id parseZeroQ 86400
    [] (some "n") 3 1 [resDecayQ] hok
  exact ⟨hok, h.1, h.2.1⟩

/-- C7 counterexample: on a concrete store whose sole candidate is exactly
one day old with a one-day half-life, the code computes
`1 * exp(-(0.693))`, which differs from the claimed
`vector_score × exp(−ln 2 · age_days / half_life_days)` because
`0.693 < ln 2`. -/
theorem temporal_decay_constant_cex :
    (match search_with_temporal_decay storeDecay Real.exp parseZero 86400 []
        (some "n") 3 1 with
      | Except.ok (r :: _) => r.combined_score
      | _ => 0) =
      1 * Real.exp (-(693 / 1000) * ((86400 - 0) / 86400) / 1) ∧
    1 * Real.exp (-(693 / 1000) * ((86400 - 0) / 86400) / 1) ≠
      1 * Real.exp (-(Real.log 2) * ((86400 - 0) / 86400) / 1) := by
  constructor
  · have h1 : ¬ ¬ ((0 : ℝ) ≤ 1 ∧ (1 : ℝ) ≤ 1) :=
      not_not_intro ⟨by norm_num, le_refl 1⟩
    have h2 : ¬ ¬ ((0 : ℝ) ≤ 0 ∧ (0 : ℝ) ≤ 1) :=
      not_not_intro ⟨le_refl 0, by norm_num⟩
    have h3 : ¬ (1 / 100 < |(1 : ℝ) + 0 - 1|) := by
      have : (1 : ℝ) + 0 - 1 = 0 := by norm_num
      rw [this, abs_zero]
      norm_num
    simp only [search_with_temporal_decay, search]
    rw [if_neg h1, if_neg h2, if_neg h3]
    rfl
  · intro hEq
    have h2 : Real.exp (-(693 / 1000) * ((86400 - 0) / 86400) / 1) =
        Real.exp (-(Real.log 2) * (((86400 : ℝ) - 0) / 86400) / 1) :=
      mul_left_cancel₀ one_ne_zero hEq
    rw [Real.exp_eq_exp] at h2
    have ha : ((86400 : ℝ) - 0) / 86400 = 1 := by norm_num
    rw [ha] at h2
    have h3 : (693 : ℝ) / 1000 = Real.log 2 := by
      have h4 : -(693 / 1000 : ℝ) = -(Real.log 2) := by
        field_simp at h2
        linarith [h2]
      linarith [h4]
    have h5 : (693 : ℝ) / 1000 < Real.log 2 :=
      lt_trans (by norm_num) Real.log_two_gt_d9
    exact absurd h3 (ne_of_lt h5)

/-! ## C1: chunk-size bound -/

/-- C1 counterexample: a valid config (`chunk_size = 4`,
`chunk_overlap = 3`) and a non-empty text for which `chunk_document`
returns a chunk longer than `chunk_size`: the overlap-merge procedure
seeds each new buffer with up to `chunk_overlap` characters and flushes
buffers that exceed `chunk_size`. -/
theorem chunk_exceeds_chunk_size_cex :
    cfgSmall.Valid ∧ textWords ≠ [] ∧
    ∃ c ∈ chunk_document textWords cfgSmall, cfgSmall.chunk_size < c.length := by
  refine ⟨by decide, by decide, ?_⟩
  decide

/-- Stripping never lengthens a string. -/
theorem pyStrip_length_le (s : List Char) : (pyStrip s).length ≤ s.length := by
  unfold pyStrip
  calc ((s.dropWhile pyIsSpace).reverse.dropWhile pyIsSpace).reverse.length
      = ((s.dropWhile pyIsSpace).reverse.dropWhile pyIsSpace).length :=
        List.length_reverse _
    _ ≤ (s.dropWhile pyIsSpace).reverse.length :=
        (List.dropWhile_sublist pyIsSpace).length_le
    _ = (s.dropWhile pyIsSpace).length := List.length_reverse _
    _ ≤ s.length := (List.dropWhile_sublist pyIsSpace).length_le

/-- Every chunk the character-split loop emits is bounded by
`chunk_size`. -/
theorem characterSplitGo_le_chunk_size (cfg : ChunkingConfig)
    (text : List Char) :
    ∀ fuel start c, c ∈ characterSplitGo cfg text fuel start →
      c.length ≤ cfg.chunk_size := by
  intro fuel
  induction fuel with
  | zero => intro start c hc; exact absurd hc (List.not_mem_nil c)
  | succ f ih =>
    intro start c hc
    rw [characterSplitGo] at hc
    by_cases hlt : start < text.length
    · rw [if_pos hlt] at hc
      simp only [] at hc
      revert hc
      split <;>
        (split
         · intro hc; exact ih _ c hc
         · intro hc
           rcases List.mem_cons.mp hc with hc | hc
           · subst hc
             first
               | exact le_trans (pyStrip_length_le _) (List.length_take_le _ _)
               | exact List.length_take_le _ _
           · exact ih _ c hc)
    · rw [if_neg hlt] at hc
      exact absurd hc (List.not_mem_nil c)

/-- C1 amended: every chunk produced by the character-split fallback has
length ≤ `chunk_size` (this holds for every config); the overlap-merge
procedure, however, can flush a buffer of up to the overlap seed plus the
accumulated fragments, so `chunk_document` may return chunks longer than
`chunk_size` (see the counterexample). -/
theorem characterSplit_le_chunk_size (cfg : ChunkingConfig)
    (text c : List Char) (hc : c ∈ characterSplit cfg text) :
    c.length ≤ cfg.chunk_size :=
  characterSplitGo_le_chunk_size cfg text text.length 0 c hc

/-- Witness for C1 (amended) on a one-character text. -/
theorem characterSplit_le_chunk_size_witness :
    ['a'] ∈ characterSplit cfgSmall ['a'] ∧
    (['a'] : List Char).length ≤ cfgSmall.chunk_size :=
  ⟨by decide, characterSplit_le_chunk_size cfgSmall ['a'] ['a'] (by decide)⟩

/-! ## C9: termination -/

/-- With a positive stride, the character-split loop is insensitive to any
sufficient fuel: every fuel of at least `text.length - start` computes the
same list, so the loop completes within `text.length` iterations. -/
theorem characterSplitGo_fuel (cfg : ChunkingConfig) (text : List Char)
    (hs : 0 < cfg.chunk_size - cfg.chunk_overlap) :
    ∀ fuel fuel' start, text.length - start ≤ fuel →
      text.length - start ≤ fuel' →
      characterSplitGo cfg text fuel start =
        characterSplitGo cfg text fuel' start := by
  intro fuel
  induction fuel with
  | zero =>
    intro fuel' start h h'
    have hse : ¬ start < text.length := by omega
    cases fuel' with
    | zero => rfl
    | succ f => simp only [characterSplitGo, if_neg hse]
  | succ f ih =>
    intro fuel' start h h'
    cases fuel' with
    | zero =>
      have hse : ¬ start < text.length := by omega
      simp only [characterSplitGo, if_neg hse]
    | succ f' =>
      simp only [characterSplitGo]
      by_cases hlt : start < text.length
      · rw [if_pos hlt, if_pos hlt]
        rw [ih f' (start + (cfg.chunk_size - cfg.chunk_overlap))
          (by omega) (by omega)]
      · rw [if_neg hlt, if_neg hlt]

/-- C9: for every valid config the character-split stride
`chunk_size - chunk_overlap` is strictly positive, so the terminal
character-split loop always makes progress and stabilizes within
`text.length` iterations — any fuel of at least `text.length` computes
`characterSplit`; the recursion over the separator list is structurally
finite (it consumes one separator per level). -/
theorem chunking_terminates (cfg : ChunkingConfig) (hv : cfg.Valid)
    (text : List Char) :
    0 < cfg.chunk_size - cfg.chunk_overlap ∧
    ∀ fuel, text.length ≤ fuel →
      characterSplitGo cfg text fuel 0 = characterSplit cfg text := by
  have hs : 0 < cfg.chunk_size - cfg.chunk_overlap := by
    rcases hv with ⟨h1, h2⟩; omega
  refine ⟨hs, fun fuel hf => ?_⟩
  exact characterSplitGo_fuel cfg text hs fuel text.length 0
    (by omega) (by omega)

/-- Witness for C9 with surplus fuel on a two-character text. -/
theorem chunking_terminates_witness :
    (0 < cfgSmall.chunk_size - cfgSmall.chunk_overlap) ∧
    characterSplitGo cfgSmall "ab".toList 5 0 =
      characterSplit cfgSmall "ab".toList := by
  have h := chunking_terminates cfgSmall (by decide) "ab".toList
  exact ⟨h.1, h.2 5 (by decide)⟩

/-! ## C8: empty input and non-empty output -/

/-- C8 counterexample: the all-whitespace one-character text `" "` is
non-empty yet chunks to `[]` under the default config (stripping erases
it); and with `keep_separator` off, a valid config whose separator covers
the whole text (`"xxxx"` split on `"x"`) also chunks to `[]`. -/
theorem chunk_document_empty_cex :
    ([' '] : List Char) ≠ [] ∧ chunk_document [' '] cfgDefault = [] ∧
    cfgNoKeep.Valid ∧ "xxxx".toList ≠ [] ∧
    chunk_document "xxxx".toList cfgNoKeep = [] := by
  decide

/-- A list with a non-`p` element survives `dropWhile p`. -/
theorem dropWhile_ne_nil_of_content (p : Char → Bool) (l : List Char)
    (h : ∃ c ∈ l, p c = false) : l.dropWhile p ≠ [] := by
  intro he
  rcases h with ⟨c, hc, hpc⟩
  have := (List.dropWhile_eq_nil_iff.mp he) c hc
  rw [hpc] at this
  exact Bool.noConfusion this

/-- The first element surviving `dropWhile p` fails `p`. -/
theorem dropWhile_head_not (p : Char → Bool) :
    ∀ (l : List Char) (c : Char) (t : List Char),
      l.dropWhile p = c :: t → p c = false
  | [], c, t, h => by simp [List.dropWhile] at h
  | d :: l', c, t, h => by
    rw [List.dropWhile_cons] at h
    by_cases hp : p d
    · rw [if_pos hp] at h
      exact dropWhile_head_not p l' c t h
    · rw [if_neg hp] at h
      injection h with h1 _
      subst h1
      simpa using hp

/-- A text with a non-whitespace character strips to a non-empty result. -/
theorem pyStrip_ne_nil (l : List Char)
    (h : ∃ c ∈ l, pyIsSpace c = false) : pyStrip l ≠ [] := by
  unfold pyStrip
  rw [Ne, List.reverse_eq_nil_iff]
  apply dropWhile_ne_nil_of_content
  have h1 : l.dropWhile pyIsSpace ≠ [] := dropWhile_ne_nil_of_content _ l h
  obtain ⟨c, t, hct⟩ := List.exists_cons_of_ne_nil h1
  refine ⟨c, ?_, dropWhile_head_not _ l c t hct⟩
  rw [List.mem_reverse, hct]
  exact List.mem_cons_self c t

/-- A non-empty strip result contains a non-whitespace character. -/
theorem pyStrip_content (l : List Char) (h : pyStrip l ≠ []) :
    ∃ c ∈ pyStrip l, pyIsSpace c = false := by
  unfold pyStrip at h ⊢
  rw [Ne, List.reverse_eq_nil_iff] at h
  obtain ⟨c, t, hct⟩ := List.exists_cons_of_ne_nil h
  refine ⟨c, ?_, dropWhile_head_not _ _ c t hct⟩
  rw [List.mem_reverse, hct]
  exact List.mem_cons_self c t

/-- A strip result that is empty had only whitespace. -/
theorem pyStrip_eq_nil_all_space (l : List Char) (h : pyStrip l = [])
    (c : Char) (hc : c ∈ l) : pyIsSpace c = true := by
  by_contra hns
  exact pyStrip_ne_nil l ⟨c, hc, Bool.eq_false_iff.mpr hns⟩ h

/-- A text with content is non-empty. -/
theorem hasContent_ne_nil (cfg : ChunkingConfig) (l : List Char)
    (h : hasContent cfg l) : l ≠ [] := by
  unfold hasContent at h
  revert h
  split
  · rintro ⟨c, hc, _⟩
    exact List.ne_nil_of_mem hc
  · exact id

/-- A stripped, non-empty fragment has content in every mode. -/
theorem hasContent_of_cleaned (cfg : ChunkingConfig) (t : List Char)
    (hne : (if cfg.strip_whitespace then pyStrip t else t) ≠ []) :
    hasContent cfg (if cfg.strip_whitespace then pyStrip t else t) := by
  unfold hasContent
  revert hne
  split
  · exact fun hne => pyStrip_content t hne
  · exact id

/-- With a valid config, the character-split loop emits at least one chunk
whenever the unprocessed suffix has content: the witness character lies in
some window, and stripping cannot erase that window. -/
theorem characterSplitGo_ne_nil (cfg : ChunkingConfig) (hv : cfg.Valid)
    (text : List Char) :
    ∀ fuel start, text.length - start ≤ fuel →
      hasContent cfg (text.drop start) →
      characterSplitGo cfg text fuel start ≠ [] := by
  have hsize : 0 < cfg.chunk_size := hv.1
  have hstride : 0 < cfg.chunk_size - cfg.chunk_overlap := by
    rcases hv with ⟨h1, h2⟩; omega
  intro fuel
  induction fuel with
  | zero =>
    intro start h hct
    have hne := hasContent_ne_nil cfg _ hct
    rw [Ne, List.drop_eq_nil_iff] at hne
    omega
  | succ f ih =>
    intro start h hct
    have hne := hasContent_ne_nil cfg _ hct
    rw [Ne, List.drop_eq_nil_iff, not_le] at hne
    rw [characterSplitGo, if_pos hne]
    simp only []
    by_cases hst : cfg.strip_whitespace = true
    · rw [if_pos hst]
      unfold hasContent at hct
      rw [if_pos hst] at hct
      rcases hct with ⟨c, hc, hpc⟩
      by_cases hchunk : pyStrip ((text.drop start).take cfg.chunk_size) = []
      · have hallsp := pyStrip_eq_nil_all_space _ hchunk
        have hcnotin : c ∉ (text.drop start).take cfg.chunk_size := by
          intro hin
          rw [hallsp c hin] at hpc
          exact Bool.noConfusion hpc
        have hcdrop : c ∈ text.drop (start + cfg.chunk_size) := by
          have hsplit := List.take_append_drop cfg.chunk_size (text.drop start)
          rw [← hsplit] at hc
          rcases List.mem_append.mp hc with hin | hin
          · exact absurd hin hcnotin
          · rw [List.drop_drop] at hin
            exact hin
        have hcnext : c ∈ text.drop
            (start + (cfg.chunk_size - cfg.chunk_overlap)) := by
          have hsub : text.drop (start + cfg.chunk_size) =
              (text.drop (start + (cfg.chunk_size - cfg.chunk_overlap))).drop
                ((start + cfg.chunk_size) -
                  (start + (cfg.chunk_size - cfg.chunk_overlap))) := by
            rw [List.drop_drop]
            congr 1
            omega
          rw [hsub] at hcdrop
          exact (List.drop_sublist _ _).mem hcdrop
        have hcont' : hasContent cfg (text.drop
            (start + (cfg.chunk_size - cfg.chunk_overlap))) := by
          unfold hasContent
          rw [if_pos hst]
          exact ⟨c, hcnext, hpc⟩
        have hrest := ih (start + (cfg.chunk_size - cfg.chunk_overlap))
          (by omega) hcont'
        rw [hchunk]
        simpa using hrest
      · rw [if_neg (by
          rw [List.isEmpty_iff]
          exact hchunk)]
        exact List.cons_ne_nil _ _
    · rw [if_neg hst]
      have htake : (text.drop start).take cfg.chunk_size ≠ [] := by
        rw [Ne, List.take_eq_nil_iff]
        push_neg
        constructor
        · omega
        · rw [Ne, List.drop_eq_nil_iff]
          omega
      rw [if_neg (by
        rw [List.isEmpty_iff]
        exact htake)]
      exact List.cons_ne_nil _ _

/-- Every chunk the character-split loop emits has content. -/
theorem characterSplitGo_content (cfg : ChunkingConfig) (text : List Char) :
    ∀ fuel start c, c ∈ characterSplitGo cfg text fuel start →
      hasContent cfg c := by
  intro fuel
  induction fuel with
  | zero => intro start c hc; exact absurd hc (List.not_mem_nil c)
  | succ f ih =>
    intro start c hc
    rw [characterSplitGo] at hc
    by_cases hlt : start < text.length
    · rw [if_pos hlt] at hc
      simp only [] at hc
      revert hc
      generalize hch : (if cfg.strip_whitespace = true then
          pyStrip (List.take cfg.chunk_size (List.drop start text))
        else List.take cfg.chunk_size (List.drop start text)) = w
      intro hc
      revert hc
      split
      · intro hc; exact ih _ c hc
      · rename_i hemp
        intro hc
        rcases List.mem_cons.mp hc with hc | hc
        · subst hc
          have hwne : (if cfg.strip_whitespace = true then
              pyStrip (List.take cfg.chunk_size (List.drop start text))
            else List.take cfg.chunk_size (List.drop start text)) ≠ [] := by
            rw [hch]
            intro hnil
            exact hemp (by rw [hnil]; rfl)
          rw [← hch]
          exact hasContent_of_cleaned cfg _ hwne
        · exact ih _ c hc
    · rw [if_neg hlt] at hc
      exact absurd hc (List.not_mem_nil c)

/-- `sepJoin` over a cons with a non-empty tail. -/
theorem sepJoin_cons (add s : List Char) :
    ∀ rest : List (List Char), rest ≠ [] →
      sepJoin add (s :: rest) = s ++ add ++ sepJoin add rest
  | [], h => absurd rfl h
  | _ :: _, _ => rfl

/-- Re-appending the separator and flattening is `sepJoin`. -/
theorem reAddSeparator_flatten (add : List Char) :
    ∀ l : List (List Char), (reAddSeparator add l).flatten = sepJoin add l
  | [] => rfl
  | [s] => by simp [reAddSeparator, sepJoin]
  | s :: r :: t => by
    show ((s ++ add) :: reAddSeparator add (r :: t)).flatten =
      s ++ add ++ sepJoin add (r :: t)
    rw [List.flatten_cons, reAddSeparator_flatten add (r :: t),
      List.append_assoc]

/-- A Python split always yields at least one piece. -/
theorem pySplitGo_ne_nil (sep : List Char) :
    ∀ (fuel : Nat) (text acc : List Char), pySplitGo sep fuel text acc ≠ [] := by
  intro fuel
  induction fuel with
  | zero =>
    intro text acc
    cases text with
    | nil => exact List.cons_ne_nil _ _
    | cons d t => exact List.cons_ne_nil _ _
  | succ f ih =>
    intro text acc
    cases text with
    | nil => exact List.cons_ne_nil _ _
    | cons d t =>
      rw [pySplitGo]
      split
      · exact List.cons_ne_nil _ _
      · exact ih t (d :: acc)

/-- A sentence split always yields at least one piece. -/
theorem sentSplitGo_ne_nil (term : Char) :
    ∀ (text : List Char) (prev : Option Char) (acc : List Char),
      sentSplitGo term text prev acc ≠ []
  | [], _, _ => List.cons_ne_nil _ _
  | d :: rest, prev, acc => by
    rw [sentSplitGo]
    split
    · exact List.cons_ne_nil _ _
    · exact sentSplitGo_ne_nil term rest (some d) (d :: acc)

/-- A verified Boolean prefix gives the decomposition of the longer
list. -/
theorem isPrefixOf_eq_append :
    ∀ (l m : List Char), l.isPrefixOf m = true → m = l ++ m.drop l.length
  | [], m, _ => by simp
  | a :: l', [], h => by simp [List.isPrefixOf] at h
  | a :: l', b :: m', h => by
    rw [List.isPrefixOf, Bool.and_eq_true] at h
    rcases h with ⟨hab, h⟩
    have hab' : a = b := by simpa using hab
    subst hab'
    simp only [List.cons_append, List.length_cons, List.drop_succ_cons]
    exact congrArg (fun x => a :: x) (isPrefixOf_eq_append l' m' h)

/-- Joining the pieces of a Python split with the separator restores the
input (prefixed by the pending accumulator). -/
theorem pySplitGo_sepJoin (sep : List Char) :
    ∀ (fuel : Nat) (text acc : List Char),
      sepJoin sep (pySplitGo sep fuel text acc) = acc.reverse ++ text := by
  intro fuel
  induction fuel with
  | zero =>
    intro text acc
    cases text with
    | nil => simp [pySplitGo, sepJoin]
    | cons d t => simp [pySplitGo, sepJoin]
  | succ f ih =>
    intro text acc
    cases text with
    | nil => simp [pySplitGo, sepJoin]
    | cons d t =>
      rw [pySplitGo]
      split
      · rename_i hpre
        rw [sepJoin_cons sep _ _ (pySplitGo_ne_nil sep f _ []),
          ih _ []]
        simp only [List.reverse_nil, List.nil_append]
        rw [List.append_assoc]
        congr 1
        exact (isPrefixOf_eq_append sep (d :: t) hpre).symm
      · rw [ih t (d :: acc)]
        simp [List.reverse_cons, List.append_assoc]

/-- Joining the pieces of a sentence split with the consumed space
restores the input. -/
theorem sentSplitGo_sepJoin (term : Char) :
    ∀ (text : List Char) (prev : Option Char) (acc : List Char),
      sepJoin [' '] (sentSplitGo term text prev acc) = acc.reverse ++ text
  | [], prev, acc => by simp [sentSplitGo, sepJoin]
  | d :: rest, prev, acc => by
    rw [sentSplitGo]
    split
    · rename_i hcond
      rw [sepJoin_cons _ _ _ (sentSplitGo_ne_nil term rest (some d) []),
        sentSplitGo_sepJoin term rest (some d) []]
      simp only [List.reverse_nil, List.nil_append]
      rw [List.append_assoc]
      congr 1
      rw [hcond.1]
      rfl
    · rw [sentSplitGo_sepJoin term rest (some d) (d :: acc)]
      simp [List.reverse_cons, List.append_assoc]

/-- With `keep_separator` on, splitting at a non-empty separator and
flattening reconstructs the text (chunking.py lines 141-164). -/
theorem splitWithSeparator_flatten (cfg : ChunkingConfig)
    (text sep : List Char) (hk : cfg.keep_separator = true) (hsep : sep ≠ []) :
    (splitWithSeparator cfg text sep).flatten = text := by
  unfold splitWithSeparator
  rw [if_neg (by rw [List.isEmpty_iff]; exact hsep)]
  simp only []
  rw [if_pos hk]
  by_cases hss : isSentenceSep sep = true
  · rw [if_pos hss, if_pos hss, reAddSeparator_flatten]
    have := sentSplitGo_sepJoin (sep.headD ' ') text none []
    simpa [sentSplit] using this
  · rw [if_neg hss, if_neg hss, reAddSeparator_flatten]
    have := pySplitGo_sepJoin sep text.length text []
    simpa [pySplit] using this

/-- `hasContent` with stripping on. -/
theorem hasContent_iff_true (cfg : ChunkingConfig)
    (hst : cfg.strip_whitespace = true) (l : List Char) :
    hasContent cfg l ↔ ∃ c ∈ l, pyIsSpace c = false := by
  unfold hasContent
  rw [if_pos hst]

/-- `hasContent` with stripping off. -/
theorem hasContent_iff_false (cfg : ChunkingConfig)
    (hst : cfg.strip_whitespace = false) (l : List Char) :
    hasContent cfg l ↔ l ≠ [] := by
  unfold hasContent
  rw [if_neg (by rw [hst]; exact Bool.false_ne_true)]

/-- Appending to the left preserves content. -/
theorem hasContent_append_right (cfg : ChunkingConfig) (x s : List Char)
    (h : hasContent cfg s) : hasContent cfg (x ++ s) := by
  by_cases hst : cfg.strip_whitespace = true
  · rw [hasContent_iff_true cfg hst] at h ⊢
    rcases h with ⟨c, hc, hpc⟩
    exact ⟨c, List.mem_append_right x hc, hpc⟩
  · have hst' : cfg.strip_whitespace = false := by
      revert hst; cases cfg.strip_whitespace <;> simp
    rw [hasContent_iff_false cfg hst'] at h ⊢
    intro hnil
    exact h (List.append_eq_nil.mp hnil).2

/-- Appending to the right preserves content. -/
theorem hasContent_append_left (cfg : ChunkingConfig) (s x : List Char)
    (h : hasContent cfg s) : hasContent cfg (s ++ x) := by
  by_cases hst : cfg.strip_whitespace = true
  · rw [hasContent_iff_true cfg hst] at h ⊢
    rcases h with ⟨c, hc, hpc⟩
    exact ⟨c, List.mem_append_left x hc, hpc⟩
  · have hst' : cfg.strip_whitespace = false := by
      revert hst; cases cfg.strip_whitespace <;> simp
    rw [hasContent_iff_false cfg hst'] at h ⊢
    intro hnil
    exact h (List.append_eq_nil.mp hnil).1

/-- A flattened list with content has a fragment with content. -/
theorem exists_content_of_flatten (cfg : ChunkingConfig)
    (L : List (List Char)) (h : hasContent cfg L.flatten) :
    ∃ s ∈ L, hasContent cfg s := by
  by_cases hst : cfg.strip_whitespace = true
  · rw [hasContent_iff_true cfg hst] at h
    rcases h with ⟨c, hc, hpc⟩
    rcases List.mem_flatten.mp hc with ⟨s, hs, hcs⟩
    exact ⟨s, hs, (hasContent_iff_true cfg hst s).mpr ⟨c, hcs, hpc⟩⟩
  · have hst' : cfg.strip_whitespace = false := by
      revert hst; cases cfg.strip_whitespace <;> simp
    rw [hasContent_iff_false cfg hst'] at h
    by_contra hall
    push_neg at hall
    apply h
    rw [List.flatten_eq_nil_iff]
    intro s hs
    by_contra hsne
    exact hall s hs ((hasContent_iff_false cfg hst' s).mpr hsne)

/-- A fragment with content keeps the flattened list contentful. -/
theorem content_flatten_of_mem (cfg : ChunkingConfig)
    (L : List (List Char)) (s : List Char) (hs : s ∈ L)
    (h : hasContent cfg s) : hasContent cfg L.flatten := by
  by_cases hst : cfg.strip_whitespace = true
  · rw [hasContent_iff_true cfg hst] at h ⊢
    rcases h with ⟨c, hc, hpc⟩
    exact ⟨c, List.mem_flatten.mpr ⟨s, hs, hc⟩, hpc⟩
  · have hst' : cfg.strip_whitespace = false := by
      revert hst; cases cfg.strip_whitespace <;> simp
    rw [hasContent_iff_false cfg hst'] at h ⊢
    intro hnil
    exact h (List.flatten_eq_nil_iff.mp hnil s hs)

/-- A buffer whose joined text has content flushes to a chunk. -/
theorem flushChunk_ne_nil (cfg : ChunkingConfig) (current : List (List Char))
    (h : hasContent cfg current.flatten) : flushChunk cfg current ≠ [] := by
  unfold flushChunk
  simp only []
  by_cases hst : cfg.strip_whitespace = true
  · rw [if_pos hst]
    rw [hasContent_iff_true cfg hst] at h
    rw [if_neg (by rw [List.isEmpty_iff]; exact pyStrip_ne_nil _ h)]
    exact List.cons_ne_nil _ _
  · have hst' : cfg.strip_whitespace = false := by
      revert hst; cases cfg.strip_whitespace <;> simp
    rw [if_neg hst]
    rw [hasContent_iff_false cfg hst'] at h
    rw [if_neg (by rw [List.isEmpty_iff]; exact h)]
    exact List.cons_ne_nil _ _

/-- Every flushed chunk has content. -/
theorem flushChunk_content (cfg : ChunkingConfig) (current : List (List Char)) :
    ∀ c ∈ flushChunk cfg current, hasContent cfg c := by
  intro c hc
  unfold flushChunk at hc
  simp only [] at hc
  revert hc
  generalize hch : (if cfg.strip_whitespace = true then pyStrip current.flatten
    else current.flatten) = w
  intro hc
  revert hc
  split
  · intro hc; exact absurd hc (List.not_mem_nil c)
  · rename_i hemp
    intro hc
    rcases List.mem_cons.mp hc with hc | hc
    · subst hc
      rw [← hch]
      apply hasContent_of_cleaned
      rw [hch]
      intro hnil
      exact hemp (by rw [hnil]; rfl)
    · exact absurd hc (List.not_mem_nil c)

/-- The merge loop only ever appends to the finished-chunk accumulator. -/
theorem mergeGo_append (cfg : ChunkingConfig) :
    ∀ (splits current : List (List Char)) (len : Nat)
      (chunks : List (List Char)),
      ∃ l, mergeGo cfg splits current len chunks = chunks ++ l := by
  intro splits
  induction splits with
  | nil => intro current len chunks; exact ⟨flushChunk cfg current, rfl⟩
  | cons split rest ih =>
    intro current len chunks
    rw [mergeGo]
    split
    · simp only []
      rcases ih (getOverlapChunk cfg current ++ [split])
          (((getOverlapChunk cfg current).map List.length).sum + split.length)
          (chunks ++ flushChunk cfg current) with ⟨l, hl⟩
      exact ⟨flushChunk cfg current ++ l, by rw [hl, List.append_assoc]⟩
    · exact ih (current ++ [split]) (len + split.length) chunks

/-- The merge loop emits at least one chunk when a pending split or the
working buffer has content. -/
theorem mergeGo_ne_nil (cfg : ChunkingConfig) :
    ∀ (splits current : List (List Char)) (len : Nat)
      (chunks : List (List Char)),
      ((∃ g ∈ splits, hasContent cfg g) ∨ hasContent cfg current.flatten) →
      mergeGo cfg splits current len chunks ≠ [] := by
  intro splits
  induction splits with
  | nil =>
    intro current len chunks h
    rcases h with ⟨g, hg, _⟩ | h
    · exact absurd hg (List.not_mem_nil g)
    · rw [mergeGo]
      intro hnil
      exact flushChunk_ne_nil cfg current h (List.append_eq_nil.mp hnil).2
  | cons split rest ih =>
    intro current len chunks h
    rw [mergeGo]
    split
    · simp only []
      rcases h with ⟨g, hg, hgc⟩ | hcur
      · rcases List.mem_cons.mp hg with hg | hg
        · subst hg
          apply ih
          right
          simp only [List.flatten_append, List.flatten_cons, List.flatten_nil,
            List.append_nil]
          exact hasContent_append_right cfg _ _ hgc
        · exact ih _ _ _ (Or.inl ⟨g, hg, hgc⟩)
      · rcases mergeGo_append cfg rest
            (getOverlapChunk cfg current ++ [split])
            (((getOverlapChunk cfg current).map List.length).sum + split.length)
            (chunks ++ flushChunk cfg current) with ⟨l, hl⟩
        rw [hl]
        intro hnil
        rcases List.append_eq_nil.mp hnil with ⟨h1, _⟩
        exact flushChunk_ne_nil cfg current hcur
          (List.append_eq_nil.mp h1).2
    · rcases h with ⟨g, hg, hgc⟩ | hcur
      · rcases List.mem_cons.mp hg with hg | hg
        · subst hg
          apply ih
          right
          simp only [List.flatten_append, List.flatten_cons, List.flatten_nil,
            List.append_nil]
          exact hasContent_append_right cfg _ _ hgc
        · exact ih _ _ _ (Or.inl ⟨g, hg, hgc⟩)
      · apply ih
        right
        simp only [List.flatten_append, List.flatten_cons, List.flatten_nil,
          List.append_nil]
        exact hasContent_append_left cfg _ _ hcur

/-- `_merge_splits` emits at least one chunk when some split has
content. -/
theorem mergeSplits_ne_nil (cfg : ChunkingConfig) (splits : List (List Char))
    (h : ∃ g ∈ splits, hasContent cfg g) : mergeSplits cfg splits ≠ [] := by
  rcases h with ⟨g, hg, hgc⟩
  unfold mergeSplits
  rw [if_neg (by rw [List.isEmpty_iff]; exact List.ne_nil_of_mem hg)]
  exact mergeGo_ne_nil cfg splits [] 0 [] (Or.inl ⟨g, hg, hgc⟩)

/-- Every chunk the merge loop emits has content (provided the finished
chunks do). -/
theorem mergeGo_content (cfg : ChunkingConfig) :
    ∀ (splits current : List (List Char)) (len : Nat)
      (chunks : List (List Char)),
      (∀ c ∈ chunks, hasContent cfg c) →
      ∀ c ∈ mergeGo cfg splits current len chunks, hasContent cfg c := by
  intro splits
  induction splits with
  | nil =>
    intro current len chunks hch c hc
    rw [mergeGo] at hc
    rcases List.mem_append.mp hc with hc | hc
    · exact hch c hc
    · exact flushChunk_content cfg current c hc
  | cons split rest ih =>
    intro current len chunks hch c hc
    rw [mergeGo] at hc
    revert hc
    split
    · simp only []
      intro hc
      refine ih _ _ _ ?_ c hc
      intro d hd
      rcases List.mem_append.mp hd with hd | hd
      · exact hch d hd
      · exact flushChunk_content cfg current d hd
    · intro hc
      exact ih _ _ _ hch c hc

/-- Every chunk `_merge_splits` emits has content. -/
theorem mergeSplits_content (cfg : ChunkingConfig) (splits : List (List Char)) :
    ∀ c ∈ mergeSplits cfg splits, hasContent cfg c := by
  intro c hc
  unfold mergeSplits at hc
  revert hc
  split
  · intro hc; exact absurd hc (List.not_mem_nil c)
  · intro hc
    exact mergeGo_content cfg splits [] 0 []
      (fun d hd => absurd hd (List.not_mem_nil d)) c hc

/-- One-step unfolding of `_split_text_recursive`. -/
theorem splitTextRecursive_eq (cfg : ChunkingConfig)
    (seps : List (List Char)) (text : List Char) :
    splitTextRecursive cfg seps text =
      if text.length ≤ cfg.chunk_size then
        (let cleaned := if cfg.strip_whitespace = true then pyStrip text
          else text
         if cleaned.isEmpty = true then [] else [cleaned])
      else
        match seps with
        | [] => characterSplit cfg text
        | sep :: rest =>
          if sep.isEmpty = true then characterSplit cfg text
          else mergeSplits cfg ((splitWithSeparator cfg text sep).flatMap
            (fun s => if s.length ≤ cfg.chunk_size then [s]
              else if ¬ rest.isEmpty = true then splitTextRecursive cfg rest s
              else characterSplit cfg s)) := by
  cases seps <;> rfl

/-- Every chunk `_split_text_recursive` returns has content: each of its
three emission sites (the fits-in-one-chunk base case, the character-split
fallback, the overlap merge) strips-and-checks before emitting. -/
theorem splitTextRecursive_content (cfg : ChunkingConfig) :
    ∀ (seps : List (List Char)) (text : List Char),
      ∀ c ∈ splitTextRecursive cfg seps text, hasContent cfg c := by
  intro seps text c hc
  rw [splitTextRecursive_eq] at hc
  by_cases hlen : text.length ≤ cfg.chunk_size
  · rw [if_pos hlen] at hc
    simp only [] at hc
    revert hc
    generalize hch : (if cfg.strip_whitespace = true then pyStrip text
      else text) = w
    intro hc
    revert hc
    split
    · intro hc; exact absurd hc (List.not_mem_nil c)
    · rename_i hemp
      intro hc
      rcases List.mem_cons.mp hc with hc | hc
      · subst hc
        rw [← hch]
        apply hasContent_of_cleaned
        rw [hch]
        intro hnil
        exact hemp (by rw [hnil]; rfl)
      · exact absurd hc (List.not_mem_nil c)
  · rw [if_neg hlen] at hc
    revert hc
    cases seps with
    | nil => exact fun hc => characterSplitGo_content cfg text _ _ c hc
    | cons sep rest =>
      show c ∈ (if sep.isEmpty = true then characterSplit cfg text
        else mergeSplits cfg ((splitWithSeparator cfg text sep).flatMap
          (fun s => if s.length ≤ cfg.chunk_size then [s]
            else if ¬ rest.isEmpty = true then splitTextRecursive cfg rest s
            else characterSplit cfg s))) → hasContent cfg c
      by_cases hse : sep.isEmpty = true
      · rw [if_pos hse]
        exact fun hc => characterSplitGo_content cfg text _ _ c hc
      · rw [if_neg hse]
        exact fun hc => mergeSplits_content cfg _ c hc

/-- The base case of `_split_text_recursive` emits a chunk from any text
with content. -/
theorem splitTextRecursive_base_ne_nil (cfg : ChunkingConfig)
    (text : List Char) (hct : hasContent cfg text)
    (hlen : text.length ≤ cfg.chunk_size) (seps : List (List Char)) :
    splitTextRecursive cfg seps text ≠ [] := by
  rw [splitTextRecursive_eq, if_pos hlen]
  show (if (if cfg.strip_whitespace = true then pyStrip text
      else text).isEmpty = true then []
    else [if cfg.strip_whitespace = true then pyStrip text else text]) ≠ []
  have hcl : (if cfg.strip_whitespace = true then pyStrip text else text) ≠ [] := by
    by_cases hst : cfg.strip_whitespace = true
    · rw [if_pos hst]
      rw [hasContent_iff_true cfg hst] at hct
      exact pyStrip_ne_nil text hct
    · have hst' : cfg.strip_whitespace = false := by
        revert hst; cases cfg.strip_whitespace <;> simp
      rw [if_neg hst]
      rw [hasContent_iff_false cfg hst'] at hct
      exact hct
  rw [if_neg (by rw [List.isEmpty_iff]; exact hcl)]
  exact List.cons_ne_nil _ _

/-- With a valid config and `keep_separator` on, `_split_text_recursive`
returns at least one chunk from any text with content. -/
theorem splitTextRecursive_ne_nil (cfg : ChunkingConfig) (hv : cfg.Valid)
    (hk : cfg.keep_separator = true) :
    ∀ (seps : List (List Char)) (text : List Char),
      hasContent cfg text → splitTextRecursive cfg seps text ≠ [] := by
  intro seps
  induction seps with
  | nil =>
    intro text hct
    by_cases hlen : text.length ≤ cfg.chunk_size
    · exact splitTextRecursive_base_ne_nil cfg text hct hlen []
    · rw [splitTextRecursive_eq, if_neg hlen]
      exact characterSplitGo_ne_nil cfg hv text text.length 0 (by omega)
        (by simpa using hct)
  | cons sep rest ih =>
    intro text hct
    by_cases hlen : text.length ≤ cfg.chunk_size
    · exact splitTextRecursive_base_ne_nil cfg text hct hlen (sep :: rest)
    · rw [splitTextRecursive_eq, if_neg hlen]
      show (if sep.isEmpty = true then characterSplit cfg text
        else mergeSplits cfg ((splitWithSeparator cfg text sep).flatMap
          (fun s => if s.length ≤ cfg.chunk_size then [s]
            else if ¬ rest.isEmpty = true then splitTextRecursive cfg rest s
            else characterSplit cfg s))) ≠ []
      by_cases hse : sep.isEmpty = true
      · rw [if_pos hse]
        exact characterSplitGo_ne_nil cfg hv text text.length 0 (by omega)
          (by simpa using hct)
      · rw [if_neg hse]
        have hsep : sep ≠ [] := by
          intro hnil
          exact hse (by rw [hnil]; rfl)
        have hflat : (splitWithSeparator cfg text sep).flatten = text :=
          splitWithSeparator_flatten cfg text sep hk hsep
        rcases exists_content_of_flatten cfg _ (by rw [hflat]; exact hct)
          with ⟨s, hs, hsc⟩
        apply mergeSplits_ne_nil
        by_cases hfit : s.length ≤ cfg.chunk_size
        · refine ⟨s, List.mem_flatMap.mpr ⟨s, hs, ?_⟩, hsc⟩
          rw [if_pos hfit]
          exact List.mem_cons_self s []
        · by_cases hre : rest.isEmpty = true
          · have hcs : characterSplit cfg s ≠ [] :=
              characterSplitGo_ne_nil cfg hv s s.length 0 (by omega)
                (by simpa using hsc)
            rcases List.exists_mem_of_ne_nil _ hcs with ⟨g, hg⟩
            refine ⟨g, List.mem_flatMap.mpr ⟨s, hs, ?_⟩,
              characterSplitGo_content cfg s _ _ g hg⟩
            rw [if_neg hfit, if_neg (by simpa using hre)]
            exact hg
          · have hrec : splitTextRecursive cfg rest s ≠ [] := ih s hsc
            rcases List.exists_mem_of_ne_nil _ hrec with ⟨g, hg⟩
            refine ⟨g, List.mem_flatMap.mpr ⟨s, hs, ?_⟩,
              splitTextRecursive_content cfg rest s g hg⟩
            rw [if_neg hfit, if_pos (by simpa using hre)]
            exact hg

/-- C8 amended: `chunk_document` returns `[]` on the empty input for
every config; and for every valid config with `keep_separator` enabled it
returns at least one chunk from every input with content — a
non-whitespace character when `strip_whitespace` is on, mere
non-emptiness otherwise.  (Without that proviso the claim fails: see the
counterexample.) -/
theorem chunk_document_nonempty (cfg : ChunkingConfig) (hv : cfg.Valid)
    (hk : cfg.keep_separator = true) :
    chunk_document [] cfg = [] ∧
    ∀ text, hasContent cfg text → chunk_document text cfg ≠ [] := by
  refine ⟨rfl, fun text hct => ?_⟩
  rw [chunk_document,
    if_neg (by rw [List.isEmpty_iff]; exact hasContent_ne_nil cfg text hct)]
  exact splitTextRecursive_ne_nil cfg hv hk _ text hct

/-- Witness for C8 (amended) on the default-like small config. -/
theorem chunk_document_nonempty_witness :
    cfgSmall.Valid ∧ cfgSmall.keep_separator = true ∧
    hasContent cfgSmall textWords ∧
    chunk_document [] cfgSmall = [] ∧
    chunk_document textWords cfgSmall ≠ [] := by
  have h := chunk_document_nonempty cfgSmall (by decide) rfl
  exact ⟨by decide, rfl, by decide, h.1, h.2 textWords (by decide)⟩

end KoruDelta
